import Mathlib

/-!
Shallow embedding of `scripts/defect_prediction.py` (history-mining defect
prediction: aggregate per-file change counts over a commit walk, normalize
them to defect-proneness scores, report the top N).

Modelling choices, faithful to the Python source:
* a Python `dict` / `defaultdict(int)` is an association list kept in
  insertion order (Python dicts preserve insertion order, and `==` on dicts
  ignores that order — dict equality is lookup equality);
* file paths are `String`; a commit's contribution is
  `commit.stats.files.keys()`, abstracted as its list of touched file paths
  (keys of a dict, hence each path once per commit);
* numeric scores are exact rationals `ℚ` standing for Python floats, so
  "within floating-point tolerance" statements become exact equalities;
* Python `sorted(..., key=lambda x: x[1], reverse=True)` is a stable sort
  that keeps elements with equal keys in their original order; it is
  embedded as `List.mergeSort` (stable) with the score-descending
  comparison.
-/

/-- Dict lookup (`d[k]` when present, `None` otherwise): the value at the
first occurrence of the key — for a dict, keys are unique. (`Nat` values:
change counts.) -/
def lookupCount : List (String × Nat) → String → Option Nat
  | [], _ => none
  | p :: rest, f => if p.1 = f then some p.2 else lookupCount rest f

/-- Read of a `defaultdict(int)`: a missing key counts as 0. -/
def getCount (m : List (String × Nat)) (f : String) : Nat :=
  (lookupCount m f).getD 0

/-- One `file_change_count[file] += 1` step on a `defaultdict(int)`: update
the existing entry, or append a fresh entry with count 1 (insertion order is
first-touch order, as in Python). -/
def incr : List (String × Nat) → String → List (String × Nat)
  | [], f => [(f, 1)]
  | p :: rest, f => if p.1 = f then (p.1, p.2 + 1) :: rest else p :: incr rest f

/-- `extract_file_change_history`: the commit walk is abstracted as the list
of per-commit touched-file lists; for each commit, for each touched file,
that file's counter is incremented by 1, starting from an empty mapping. -/
def extract_file_change_history (commits : List (List String)) : List (String × Nat) :=
  commits.foldl (fun m c => c.foldl incr m) []

/-- Dict lookup for score maps (`ℚ` values). -/
def lookupScore : List (String × ℚ) → String → Option ℚ
  | [], _ => none
  | p :: rest, f => if p.1 = f then some p.2 else lookupScore rest f

/-- Score of a file, a missing key treated as 0 (the spec's convention for
blending; also how an absent file contributes no score). -/
def getScore (m : List (String × ℚ)) (f : String) : ℚ :=
  (lookupScore m f).getD 0

/-- `sum(d.values())`. -/
def valuesSum (m : List (String × ℚ)) : ℚ := (m.map (fun p => p.2)).sum

/-- `list(d.keys())`, in insertion order. -/
def keys (m : List (String × ℚ)) : List String := m.map (fun p => p.1)

/-- `calculate_bug_scores`: `total_changes = sum(values)`; if it is 0 the
empty map is returned (avoiding division by zero); otherwise each entry is
replaced by its value divided by the total, in the same iteration order. -/
def calculate_bug_scores (file_change_count : List (String × ℚ)) : List (String × ℚ) :=
  let total_changes := valuesSum file_change_count
  if total_changes = 0 then []
  else file_change_count.map (fun p => (p.1, p.2 / total_changes))

/-- A `FileChangeRecord` (integer counts) fed to `calculate_bug_scores` as a
raw score map: Python int division promotes to float; here `Nat` coerces to
`ℚ`. -/
def toScoreMap (m : List (String × Nat)) : List (String × ℚ) :=
  m.map (fun p => (p.1, (p.2 : ℚ)))

/-- The comparison of `sorted(bug_scores.items(), key=lambda x: x[1],
reverse=True)`: entry `a` may come before entry `b` when `a`'s score is at
least `b`'s. -/
def scoreDescLE (a b : String × ℚ) : Bool := decide (b.2 ≤ a.2)

/-- `generate_report`: stable sort of the map's entries by score descending
(CPython's sort with `reverse=True` keeps equal-key elements in their
original order), truncated to the first `top_n`; the rank of an entry is its
position (starting at 1) in the returned list. -/
def generate_report (bug_scores : List (String × ℚ)) (top_n : Nat) : List (String × ℚ) :=
  (bug_scores.mergeSort scoreDescLE).take top_n

/-- Modelled from the spec: the repository source has no blend function
(the spec introduces blending of two already-normalized score maps as a new
requirement over the source's two non-composing approaches). Per the spec,
`blended[f] = w*a[f] + (1-w)*b[f]` for every key `f` appearing in either
map, a key missing from either map treated as 0. -/
def blend (a b : List (String × ℚ)) (w : ℚ) : List (String × ℚ) :=
  let ks := keys a ++ (keys b).filter (fun k => decide (¬ k ∈ keys a))
  ks.map (fun k => (k, w * getScore a k + (1 - w) * getScore b k))

/-- Claim C2: for every raw input map whose values sum to 0 — in particular
the empty map and any all-zero map — `calculate_bug_scores` returns the
empty score map (the `total_changes == 0` guard; no division by zero is
reached). -/
theorem C2_zero_total_returns_empty (m : List (String × ℚ))
    (h : valuesSum m = 0) : calculate_bug_scores m = [] := by
  simp [calculate_bug_scores, h]

theorem C2_zero_total_returns_empty_witness :
    calculate_bug_scores [(("a" : String), (0 : ℚ)), ("b", 0)] = [] :=
  C2_zero_total_returns_empty [("a", 0), ("b", 0)] (by norm_num [valuesSum])

/-- Claim C7: normalization is idempotent on an already-normalized map: if
the values of `x` sum to 1, re-feeding `x` to `calculate_bug_scores`
returns `x` itself — exactly, in the rational model, hence a fortiori
within any floating-point tolerance. -/
theorem C7_normalize_idempotent (x : List (String × ℚ))
    (h : valuesSum x = 1) : calculate_bug_scores x = x := by
  simp [calculate_bug_scores, h]

theorem C7_normalize_idempotent_witness :
    calculate_bug_scores [(("x" : String), (1 : ℚ)/2), ("y", 1/2)] =
      [("x", 1/2), ("y", 1/2)] :=
  C7_normalize_idempotent [("x", 1/2), ("y", 1/2)] (by norm_num [valuesSum])

/-- Claim C8: aggregating zero commits yields the empty mapping (not an
error), and a single commit touching zero files contributes no counter
changes, also yielding the empty mapping. -/
theorem C8_empty_aggregation :
    extract_file_change_history [] = [] ∧
      extract_file_change_history [[]] = [] :=
  ⟨rfl, rfl⟩

/-- Unfolding of the defaultdict read on a cons cell. -/
theorem getCount_cons (p : String × Nat) (rest : List (String × Nat)) (f : String) :
    getCount (p :: rest) f = if p.1 = f then p.2 else getCount rest f := by
  by_cases h : p.1 = f <;> simp [getCount, lookupCount, h]

/-- Effect of one increment on the defaultdict read: the incremented key
gains 1, every other key is unchanged. -/
theorem getCount_incr (m : List (String × Nat)) (k f : String) :
    getCount (incr m k) f = getCount m f + (if f = k then 1 else 0) := by
  induction m with
  | nil =>
    by_cases h : f = k
    · subst h; simp [incr, getCount_cons, getCount, lookupCount]
    · have hk : ¬ k = f := fun hh => h hh.symm
      simp [incr, getCount_cons, getCount, lookupCount, h, hk]
  | cons p rest ih =>
    by_cases hp : p.1 = k
    · have h1 : incr (p :: rest) k = (p.1, p.2 + 1) :: rest := by simp [incr, hp]
      by_cases h : f = k
      · subst h; rw [h1, getCount_cons, getCount_cons, if_pos hp, if_pos hp]; simp
      · have hpf : ¬ p.1 = f := fun hh => h (hh.symm.trans hp)
        rw [h1, getCount_cons, getCount_cons, if_neg hpf, if_neg hpf, if_neg h]
        simp
    · have h1 : incr (p :: rest) k = p :: incr rest k := by simp [incr, hp]
      rw [h1, getCount_cons, getCount_cons, ih]
      by_cases hpf : p.1 = f
      · have hfk : ¬ f = k := fun hh => hp (hpf.trans hh)
        rw [if_pos hpf, if_pos hpf, if_neg hfk]
        simp
      · rw [if_neg hpf, if_neg hpf]

/-- Every value stored by `incr` is positive (a key enters the mapping only
by being incremented). -/
theorem pos_of_mem_incr (m : List (String × Nat)) (k : String)
    (hm : ∀ p ∈ m, 0 < p.2) : ∀ p ∈ incr m k, 0 < p.2 := by
  induction m with
  | nil => simp [incr]
  | cons q rest ih =>
    by_cases hq : q.1 = k
    · intro p hp
      rcases List.mem_cons.mp (by simpa [incr, hq] using hp) with h1 | h2
      · simp [h1]
      · exact hm p (List.mem_cons_of_mem q h2)
    · intro p hp
      rcases List.mem_cons.mp (by simpa [incr, hq] using hp) with h1 | h2
      · exact h1 ▸ hm q (List.mem_cons_self q rest)
      · exact ih (fun r hr => hm r (List.mem_cons_of_mem q hr)) p h2

/-- On a mapping whose stored values are all positive, the optional lookup
is determined by the defaultdict read: absent iff the read is 0. -/
theorem lookupCount_eq_of_pos (m : List (String × Nat)) (f : String)
    (hm : ∀ p ∈ m, 0 < p.2) :
    lookupCount m f = if getCount m f = 0 then none else some (getCount m f) := by
  induction m with
  | nil => simp [lookupCount, getCount]
  | cons p rest ih =>
    by_cases hp : p.1 = f
    · have hpos : 0 < p.2 := hm p (List.mem_cons_self p rest)
      simp [lookupCount, getCount, hp, Nat.pos_iff_ne_zero.mp hpos]
    · simpa [lookupCount, getCount, hp] using
        ih (fun r hr => hm r (List.mem_cons_of_mem p hr))

/-- Folding one commit's touched-file list adds, for each key, the number of
occurrences of that key in the list. -/
theorem getCount_foldl_incr (c : List String) (m : List (String × Nat)) (f : String) :
    getCount (c.foldl incr m) f = getCount m f + c.count f := by
  induction c generalizing m with
  | nil => simp
  | cons x c ih =>
    simp only [List.foldl_cons, ih, getCount_incr, List.count_cons]
    by_cases h : f = x
    · subst h; simp; omega
    · have hxf : ¬ x = f := fun hh => h hh.symm
      simp [h, hxf]

/-- Every value stored by the commit fold is positive. -/
theorem pos_of_foldl_incr (c : List String) (m : List (String × Nat))
    (hm : ∀ p ∈ m, 0 < p.2) : ∀ p ∈ c.foldl incr m, 0 < p.2 := by
  induction c generalizing m with
  | nil => simpa using hm
  | cons x c ih => exact ih (incr m x) (pos_of_mem_incr m x hm)

/-- Characterization of aggregation: the count read for a file equals the
sum, over the commit sequence, of that file's occurrences in each commit's
touched-file list. -/
theorem getCount_extract (cs : List (List String)) (f : String) :
    getCount (extract_file_change_history cs) f =
      (cs.map (fun c => c.count f)).sum := by
  suffices h : ∀ m0, getCount (cs.foldl (fun m c => c.foldl incr m) m0) f =
      getCount m0 f + (cs.map (fun c => c.count f)).sum by
    simpa [extract_file_change_history, getCount, lookupCount] using h []
  induction cs with
  | nil => simp
  | cons c cs ih => intro m0; simp [ih, getCount_foldl_incr]; omega

/-- Every value stored by aggregation is positive. -/
theorem pos_extract (cs : List (List String)) :
    ∀ p ∈ extract_file_change_history cs, 0 < p.2 := by
  suffices h : ∀ m0, (∀ p ∈ m0, 0 < p.2) →
      ∀ p ∈ cs.foldl (fun m c => c.foldl incr m) m0, 0 < p.2 by
    exact h [] (by simp)
  induction cs with
  | nil => exact fun m0 hm => hm
  | cons c cs ih => exact fun m0 hm => ih _ (pos_of_foldl_incr c m0 hm)

/-- Claim C4: aggregation is order-independent — permuting the commit
sequence yields an identical final file-to-count mapping (identity of
Python dicts is lookup equality, which ignores insertion order). -/
theorem C4_aggregation_perm_invariant (cs₁ cs₂ : List (List String))
    (h : cs₁.Perm cs₂) (f : String) :
    lookupCount (extract_file_change_history cs₁) f =
      lookupCount (extract_file_change_history cs₂) f := by
  have hv : getCount (extract_file_change_history cs₁) f =
      getCount (extract_file_change_history cs₂) f := by
    rw [getCount_extract, getCount_extract]
    exact (h.map fun c => c.count f).sum_eq
  rw [lookupCount_eq_of_pos _ _ (pos_extract cs₁),
    lookupCount_eq_of_pos _ _ (pos_extract cs₂), hv]

theorem C4_aggregation_perm_invariant_witness :
    lookupCount (extract_file_change_history [["a"], ["b", "a"]]) "a" =
      lookupCount (extract_file_change_history [["b", "a"], ["a"]]) "a" :=
  C4_aggregation_perm_invariant [["a"], ["b", "a"]] [["b", "a"], ["a"]]
    (List.Perm.swap _ _ _) "a"

/-- Claim C9: throughout a single aggregation pass every stored count is
positive (hence non-negative), and counts only grow: after any later prefix
of the commit sequence, no file's count is smaller than after any earlier
prefix. -/
theorem C9_counts_monotone (cs : List (List String)) (i j : Nat)
    (hij : i ≤ j) (f : String) :
    (∀ p ∈ extract_file_change_history cs, 0 < p.2) ∧
      getCount (extract_file_change_history (cs.take i)) f ≤
        getCount (extract_file_change_history (cs.take j)) f := by
  refine ⟨pos_extract cs, ?_⟩
  rw [getCount_extract, getCount_extract]
  have htake : cs.take i = (cs.take j).take i := by
    rw [List.take_take, Nat.min_eq_left hij]
  rw [htake, List.map_take]
  calc ((( cs.take j).map fun c => c.count f).take i).sum
      ≤ (((cs.take j).map fun c => c.count f).take i).sum
        + (((cs.take j).map fun c => c.count f).drop i).sum := Nat.le_add_right _ _
    _ = ((cs.take j).map fun c => c.count f).sum := by
        rw [← List.sum_append, List.take_append_drop]

theorem C9_counts_monotone_witness :
    getCount (extract_file_change_history ([["a"], ["a"]].take 1)) "a" ≤
      getCount (extract_file_change_history ([["a"], ["a"]].take 2)) "a" :=
  (C9_counts_monotone [["a"], ["a"]] 1 2 (by norm_num) "a").2

/-- The value sum of a cons cell. -/
theorem valuesSum_cons (p : String × ℚ) (rest : List (String × ℚ)) :
    valuesSum (p :: rest) = p.2 + valuesSum rest := by
  simp [valuesSum]

/-- Dividing every value divides the value sum. -/
theorem valuesSum_map_div (l : List (String × ℚ)) (t : ℚ) :
    valuesSum (l.map fun p => (p.1, p.2 / t)) = valuesSum l / t := by
  induction l with
  | nil => simp [valuesSum]
  | cons p rest ih => rw [List.map_cons, valuesSum_cons, valuesSum_cons, ih, add_div]

/-- Mapping a function over the values commutes with lookup. -/
theorem lookupScore_map_val (l : List (String × ℚ)) (g : ℚ → ℚ) (f : String) :
    lookupScore (l.map fun p => (p.1, g p.2)) f = (lookupScore l f).map g := by
  induction l with
  | nil => simp [lookupScore]
  | cons p rest ih => by_cases h : p.1 = f <;> simp [lookupScore, h, ih]

/-- Claim C1, counterexample to the literal statement: the one-entry
FileChangeRecord with count 0 is non-empty, yet `calculate_bug_scores`
returns the empty map, whose value sum is 0 — not within 1e-9 of 1. -/
theorem C1_counterexample :
    ([(("a" : String), (0 : Nat))] ≠ []) ∧
      |valuesSum (calculate_bug_scores (toScoreMap [("a", 0)])) - 1| >
        1 / 1000000000 := by
  constructor
  · simp
  · norm_num [toScoreMap, calculate_bug_scores, valuesSum]

/-- Claim C1 (amended): for every FileChangeRecord input whose total of
counts is positive — in particular every non-empty record produced by the
aggregation pass, whose stored counts are all positive — normalization
yields a map whose values sum to exactly 1 (hence within 1e-9), with each
score equal to the raw count divided by the total. -/
theorem C1_normalize_sums_to_one (m : List (String × Nat))
    (h : 0 < valuesSum (toScoreMap m)) :
    valuesSum (calculate_bug_scores (toScoreMap m)) = 1 ∧
      ∀ f, lookupScore (calculate_bug_scores (toScoreMap m)) f =
        (lookupScore (toScoreMap m) f).map
          (fun v => v / valuesSum (toScoreMap m)) := by
  have hne : valuesSum (toScoreMap m) ≠ 0 := ne_of_gt h
  constructor
  · simp only [calculate_bug_scores, if_neg hne]
    rw [valuesSum_map_div, div_self hne]
  · intro f
    simp only [calculate_bug_scores, if_neg hne]
    exact lookupScore_map_val (toScoreMap m)
      (fun v => v / valuesSum (toScoreMap m)) f

theorem C1_normalize_sums_to_one_witness :
    valuesSum (calculate_bug_scores (toScoreMap [("a", 1), ("b", 3)])) = 1 :=
  (C1_normalize_sums_to_one [("a", 1), ("b", 3)]
    (by norm_num [valuesSum, toScoreMap])).1

/-- Claim C10: for every raw input map with non-negative values and positive
total, normalization preserves the key set (in order) and yields values in
[0, 1]; the input is left unchanged — the embedded operation is pure, as the
Python function only reads its argument and writes a fresh dict. -/
theorem C10_keys_preserved_range (m : List (String × ℚ))
    (hnn : ∀ p ∈ m, 0 ≤ p.2) (h : 0 < valuesSum m) :
    keys (calculate_bug_scores m) = keys m ∧
      ∀ p ∈ calculate_bug_scores m, 0 ≤ p.2 ∧ p.2 ≤ 1 := by
  have hne : valuesSum m ≠ 0 := ne_of_gt h
  constructor
  · simp [calculate_bug_scores, hne, keys]
  · intro p hp
    simp only [calculate_bug_scores, if_neg hne, List.mem_map] at hp
    obtain ⟨q, hq, rfl⟩ := hp
    refine ⟨div_nonneg (hnn q hq) (le_of_lt h), ?_⟩
    have hmem : q.2 ∈ m.map fun r => r.2 := List.mem_map_of_mem _ hq
    have hle : q.2 ≤ valuesSum m := by
      refine List.single_le_sum ?_ _ hmem
      intro a ha
      obtain ⟨r, hr, rfl⟩ := List.mem_map.mp ha
      exact hnn r hr
    exact div_le_one_of_le₀ hle (le_of_lt h)

theorem C10_keys_preserved_range_witness :
    keys (calculate_bug_scores [(("a" : String), (1 : ℚ)), ("b", 3)]) =
      keys [(("a" : String), (1 : ℚ)), ("b", 3)] :=
  (C10_keys_preserved_range [("a", 1), ("b", 3)]
    (by norm_num)
    (by norm_num [valuesSum])).1

/-- The report comparison is transitive. -/
theorem scoreDescLE_trans (a b c : String × ℚ) :
    scoreDescLE a b → scoreDescLE b c → scoreDescLE a c := by
  simp only [scoreDescLE, decide_eq_true_eq]
  exact fun h1 h2 => le_trans h2 h1

/-- The report comparison is total. -/
theorem scoreDescLE_total (a b : String × ℚ) :
    scoreDescLE a b || scoreDescLE b a := by
  simp only [scoreDescLE, Bool.or_eq_true, decide_eq_true_eq]
  exact le_total b.2 a.2

/-- Claim C3, counterexample to the literal statement: on the two-entry map
with equal scores inserted as `b` before `a`, the report keeps `b` first
(stable sort preserves insertion order), although `a` is the
lexicographically smaller path — so equal scores are not ordered by path
ascending. -/
theorem C3_counterexample :
    generate_report [(("b" : String), (1 : ℚ)/2), ("a", 1/2)] 2 =
        [("b", 1/2), ("a", 1/2)] ∧ ("a" : String) < "b" := by
  constructor
  · simp [generate_report, List.mergeSort, List.merge, scoreDescLE]
  · rw [String.lt_iff_toList_lt]; decide

/-- Claim C3 (amended): the top-N report lists entries sorted by score
descending; entries with equal scores keep their relative input (insertion)
order — the stable-sort tie-break, not path-ascending order; and repeated
calls on identical input produce identical output. -/
theorem C3_report_sorted_stable (s : List (String × ℚ)) (n : Nat) :
    (generate_report s n).Pairwise (fun a b => b.2 ≤ a.2) ∧
      (∀ a b : String × ℚ, [a, b].Sublist s → a.2 = b.2 →
        [a, b].Sublist (s.mergeSort scoreDescLE)) ∧
      generate_report s n = generate_report s n := by
  refine ⟨?_, ?_, rfl⟩
  · have hs : (s.mergeSort scoreDescLE).Pairwise (fun a b => scoreDescLE a b) :=
      List.sorted_mergeSort scoreDescLE_trans scoreDescLE_total s
    have hs2 : (s.mergeSort scoreDescLE).Pairwise (fun a b => b.2 ≤ a.2) :=
      hs.imp (fun h => by simpa [scoreDescLE] using h)
    exact hs2.sublist (List.take_sublist n _)
  · intro a b hsub htie
    refine List.pair_sublist_mergeSort scoreDescLE_trans scoreDescLE_total ?_ hsub
    simp [scoreDescLE, htie]

theorem C3_report_sorted_stable_witness :
    [(("b" : String), (1 : ℚ)), ("a", 1)].Sublist
      (List.mergeSort [(("b" : String), (1 : ℚ)), ("a", 1)] scoreDescLE) :=
  (C3_report_sorted_stable [("b", 1), ("a", 1)] 2).2.1
    ("b", 1) ("a", 1) (List.Sublist.refl _) rfl

/-- Claim C6: when N exceeds the number of entries, the report contains
exactly all entries of the map — its length equals the map's size and it is
a permutation of the map's entries; no error arises (Python slicing
truncates silently). -/
theorem C6_topn_exceeding_size (s : List (String × ℚ)) (n : Nat)
    (h : s.length < n) :
    (generate_report s n).length = s.length ∧ (generate_report s n).Perm s := by
  have hlen : (s.mergeSort scoreDescLE).length ≤ n := by
    rw [List.length_mergeSort]; omega
  have htake : (s.mergeSort scoreDescLE).take n = s.mergeSort scoreDescLE :=
    List.take_of_length_le hlen
  refine ⟨?_, ?_⟩
  · rw [generate_report, htake, List.length_mergeSort]
  · rw [generate_report, htake]
    exact List.mergeSort_perm s _

theorem C6_topn_exceeding_size_witness :
    (generate_report [(("a" : String), (1 : ℚ))] 5).length = 1 :=
  (C6_topn_exceeding_size [("a", 1)] 5 (by norm_num)).1

/-- Lookup in a map built by tabulating a function over a key list. -/
theorem lookupScore_tabulate (ks : List String) (g : String → ℚ) (f : String) :
    lookupScore (ks.map fun k => (k, g k)) f =
      if f ∈ ks then some (g f) else none := by
  induction ks with
  | nil => simp [lookupScore]
  | cons k ks ih =>
    by_cases h : k = f
    · subst h; simp [lookupScore]
    · have hf : ¬ f = k := fun hh => h hh.symm
      simp [lookupScore, h, hf, ih]

/-- Membership in the blended map's key list is membership in either input
key list. -/
theorem mem_blend_keys (a b : List (String × ℚ)) (f : String) :
    f ∈ keys a ++ (keys b).filter (fun k => decide (¬ k ∈ keys a)) ↔
      f ∈ keys a ∨ f ∈ keys b := by
  simp only [List.mem_append, List.mem_filter, decide_eq_true_eq]
  tauto

/-- Claim C5 (spec-modelled): blending two already-normalized score maps
with a weight in [0, 1] assigns `w*a[f] + (1-w)*b[f]` to every key
appearing in either map (a missing key contributing 0), and in particular
the spec's scenario evaluates to `{x: 1/2, y: 1/2}`. -/
theorem C5_blend_weighted (a b : List (String × ℚ)) (w : ℚ)
    (hw0 : 0 ≤ w) (hw1 : w ≤ 1) (ha : valuesSum a = 1) (hb : valuesSum b = 1) :
    (∀ f, f ∈ keys a ∨ f ∈ keys b →
        lookupScore (blend a b w) f =
          some (w * getScore a f + (1 - w) * getScore b f)) ∧
      blend [("x", 8/10), ("y", 2/10)] [("x", 2/10), ("y", 8/10)] (1/2) =
        [("x", 1/2), ("y", 1/2)] := by
  constructor
  · intro f hf
    simp only [blend]
    rw [lookupScore_tabulate, if_pos ((mem_blend_keys a b f).mpr hf)]
  · simp [blend, keys, getScore, lookupScore]
    norm_num

theorem C5_blend_weighted_witness :
    blend [(("x" : String), (8 : ℚ)/10), ("y", 2/10)]
        [(("x" : String), (2 : ℚ)/10), ("y", 8/10)] (1/2) =
      [("x", 1/2), ("y", 1/2)] :=
  (C5_blend_weighted [("x", 8/10), ("y", 2/10)] [("x", 2/10), ("y", 8/10)]
    (1/2) (by norm_num) (by norm_num) (by norm_num [valuesSum])
    (by norm_num [valuesSum])).2
